import Mathlib

/-!
Verification development for an enumerative program-synthesis engine.

The engine enumerates syntax trees from a context-free grammar bottom-up,
filters them through declarative constraints, and deduplicates them with a
screen backed by a hash set.  The definitions below are a shallow embedding
of the engine: `Tree` mirrors the syntax-tree classes (`Int`, `String`,
`Var`, `Node`, `SymmetricNode`, plus the grammar placeholder `Nonterminal`
and the Python value `None`, which the engine can produce through
`SymmetricNode.replace_children`), `pyEq` / `pyHashKey` / `pyLt` mirror the
Python `__eq__` / `__hash__` / `__lt__` methods, `psubProd` mirrors
`Grammar.perform_substitution`, and `enumerateBottomUp` /
`enumerateForever` mirror the enumeration entry points.  Constraint objects
are abstracted by a type `C` together with a `CModel` giving their
`is_valid_entry` predicate, their equality and their hash.
-/

namespace Synth

/-- A Python value as produced by the tree evaluator: an int, a string, or
`None` (which `eval` returns when its `match` falls through, e.g. on a
placeholder).  Operator functions are modelled as total functions on these. -/
inductive PyVal where
  | int (i : Int)
  | str (s : String)
  | none_
deriving DecidableEq

/-- The structure Python's `hash` is applied to: ints, strings, `None` and
tuples of such; a tuple is encoded as a `cons` chain ending in `nil`.  Two
objects get the same hash bucket iff their `HKey`s are equal (we identify
hash equality with equality of the hashed structure; accidental 64-bit
collisions between distinct structures are not modelled). -/
inductive HKey where
  | int (i : Int)
  | str (s : String)
  | none_
  | nil
  | cons (hd tl : HKey)
deriving DecidableEq

/-- Build the encoding of a tuple of hash keys. -/
def HKey.ofList : List HKey → HKey
  | [] => .nil
  | k :: ks => .cons k (HKey.ofList ks)

/-- The value of a tree's `key()` method: a nested tuple of strings,
tuples again encoded as `cons` chains (`Int.key` stringifies its payload,
so `Int(1)` and `Var("1")` share a key). -/
inductive TKey where
  | str (s : String)
  | nil
  | cons (hd tl : TKey)
deriving DecidableEq

/-- Build the encoding of a tuple of key values. -/
def TKey.ofList : List TKey → TKey
  | [] => .nil
  | k :: ks => .cons k (TKey.ofList ks)

/-- Python `<` on strings: lexicographic by code point. -/
def charListLt : List Char → List Char → Bool
  | [], [] => false
  | [], _ :: _ => true
  | _ :: _, [] => false
  | c :: cs, d :: ds => if c = d then charListLt cs ds else decide (c < d)

/-- Python `<` on strings, on the character lists of the two strings. -/
def strLt (a b : String) : Bool := charListLt a.data b.data

/-- Python `<` on key values: strings compare lexicographically, tuples
lexicographically by element (the first `==`-unequal position decides,
else the shorter tuple is smaller).  A string is never compared with a
tuple here: keys of trees are homogeneous position by position (Python
would raise `TypeError`); those arms return `false`. -/
def TKey.lt : TKey → TKey → Bool
  | .str a, .str b => strLt a b
  | .nil, .nil => false
  | .nil, .cons _ _ => true
  | .cons _ _, .nil => false
  | .cons x xs, .cons y ys => if x == y then TKey.lt xs ys else TKey.lt x y
  | _, _ => false

/-- A grammar nonterminal: a name plus the constraints attached at this
usage site (`Nonterminal` in `symbols.py`). -/
structure Nonterminal (C : Type) where
  name : String
  constraints : List C

/-- Syntax trees (`ast.py`).  `int`/`str`/`var` are the `Value` leaves,
`node` is `Node`, `symNode` is `SymmetricNode`, `nt` is a placeholder
`Nonterminal` child, and `pynone` is the Python `None` object, which
`SymmetricNode.replace_children` returns on its one-replacement path. -/
inductive Tree (C : Type) where
  | int (i : Int)
  | str (s : String)
  | var (name : String)
  | node (name : String) (children : List (Tree C))
  | symNode (name : String) (children : List (Tree C))
  | nt (sym : Nonterminal C)
  | pynone

/-- The semantics of the abstract constraint type `C`: `interp` is
`is_valid_entry`, `cBeq` is Python `==` on constraint objects, `cKey` is
their hash (where defined; constraints holding a dict are unhashable in
Python, but nothing in the engine hashes such a constraint). -/
structure CModel (C : Type) where
  interp : C → Tree C → Bool
  cBeq : C → C → Bool
  cKey : C → HKey

variable {C : Type}

/- The structural size of a tree; used only to seed the fuel of the
equality functions below. -/
mutual
def sizeT : Tree C → Nat
  | .node _ cs => 1 + sizeTList cs
  | .symNode _ cs => 1 + sizeTList cs
  | _ => 1
def sizeTList : List (Tree C) → Nat
  | [] => 1
  | c :: cs => 1 + sizeT c + sizeTList cs
end

/-- `isinstance(child, Nonterminal)`. -/
def Tree.isNt : Tree C → Bool
  | .nt _ => true
  | _ => false

/-- `isinstance(x, Value)`: an atomic leaf. -/
def Tree.isLeaf : Tree C → Bool
  | .int _ => true
  | .str _ => true
  | .var _ => true
  | _ => false

/-- `Node.holes`: the children that are placeholder symbols. -/
def holesOf : List (Tree C) → List (Nonterminal C)
  | [] => []
  | .nt s :: cs => s :: holesOf cs
  | _ :: cs => holesOf cs

/-- `Node.holes_indices` starting from position `i`. -/
def holeIndicesFrom (i : Nat) : List (Tree C) → List Nat
  | [] => []
  | c :: cs => if c.isNt then i :: holeIndicesFrom (i + 1) cs else holeIndicesFrom (i + 1) cs

/-- `Node.holes_indices`. -/
def holeIndices (cs : List (Tree C)) : List Nat := holeIndicesFrom 0 cs

/-- The loop inside `Node.replace_children`: walk the children with their
positions; a position in `ids` takes the next replacement, the rest are
kept.  If the replacement iterator is exhausted Python raises
`StopIteration` inside a generator expression; the `[]` fallback keeping
the child is unreachable under the asserted length precondition. -/
def replaceAux (ids : List Nat) : Nat → List (Tree C) → List (Tree C) → List (Tree C)
  | _, [], _ => []
  | i, c :: cs, repls =>
    if ids.contains i then
      match repls with
      | r :: rs => r :: replaceAux ids (i + 1) cs rs
      | [] => c :: replaceAux ids (i + 1) cs []
    else
      c :: replaceAux ids (i + 1) cs repls

/-- `replace_children(ids, replacements)`, with the `SymmetricNode`
override.  On a plain `Node` the designated positions are replaced in
ascending position order.  On a `SymmetricNode`: two replacements replace
the whole child tuple (the `ids` argument is ignored); one replacement
builds the intended node but the source lacks a `return`, so the call
returns `None` (`pynone`); zero replacements return the node itself; any
other count matches no case and also returns `None`.  The method does not
exist on leaves or placeholders (Python would raise `AttributeError`);
those arms return `pynone` and are unreachable in the engine. -/
def Tree.replaceChildren : Tree C → List Nat → List (Tree C) → Tree C
  | .node n cs, ids, repls => .node n (replaceAux ids 0 cs repls)
  | .symNode n cs, _ids, repls =>
    match repls with
    | [l, r] => .symNode n [l, r]
    | [_] => .pynone
    | [] => .symNode n cs
    | _ => .pynone
  | _, _, _ => .pynone

/- `key()` (`Ordered` protocol): values give a one-element tuple of their
stringified payload, nodes give `(name, *child keys)`.  A placeholder has
no `key` method (Python raises `AttributeError`): `none`. -/
mutual
def pyKey : Tree C → Option TKey
  | .int i => some (.cons (.str (toString i)) .nil)
  | .str s => some (.cons (.str s) .nil)
  | .var n => some (.cons (.str n) .nil)
  | .node n cs => (pyKeyList cs).map fun ks => .cons (.str n) (TKey.ofList ks)
  | .symNode n cs => (pyKeyList cs).map fun ks => .cons (.str n) (TKey.ofList ks)
  | .nt _ => none
  | .pynone => none
def pyKeyList : List (Tree C) → Option (List TKey)
  | [] => some []
  | c :: cs =>
    match pyKey c, pyKeyList cs with
    | some k, some ks => some (k :: ks)
    | _, _ => none
end

/-- Python `==` on two constraint tuples, element by element. -/
def constrBEqList (M : CModel C) : List C → List C → Bool
  | [], [] => true
  | x :: xs, y :: ys => M.cBeq x y && constrBEqList M xs ys
  | _, _ => false

/- Structural (positional) Boolean equality on trees, using the
constraint model's equality on attached constraints. -/
mutual
def treeBEq (M : CModel C) : Tree C → Tree C → Bool
  | .int a, .int b => a == b
  | .str a, .str b => a == b
  | .var a, .var b => a == b
  | .node n cs, .node m ds => n == m && treeBEqList M cs ds
  | .symNode n cs, .symNode m ds => n == m && treeBEqList M cs ds
  | .nt s, .nt t => s.name == t.name && constrBEqList M s.constraints t.constraints
  | .pynone, .pynone => true
  | _, _ => false
def treeBEqList (M : CModel C) : List (Tree C) → List (Tree C) → Bool
  | [], [] => true
  | x :: xs, y :: ys => treeBEq M x y && treeBEqList M xs ys
  | _, _ => false
end

/- Python `<` on trees.  `SymmetricNode.__lt__` compares the tuples
`(name, *children)` lexicographically when the other side is a `Node`
(and returns `None`, falsy, otherwise); every other `Ordered` object
compares by `key()`.  Comparisons Python cannot perform (a missing key, a
non-`Ordered` right-hand side) raise there; they return `false` here and
are exercised by the engine only on placeholder-free trees, where they do
not arise.  Inside the tuple comparison Python tests children with the
full rich `==`; this model uses structural equality, which agrees with it
except on symmetric nodes whose unordered equality fires on positionally
different children — no comparison performed by the engine reaches that
case.  Bare placeholders order by name (their constraint tuples are
compared only for equality; ordering constraint objects would raise). -/
mutual
def pyLt (M : CModel C) : Tree C → Tree C → Bool
  | .symNode n cs, .node m ds => if n == m then pyLtList M cs ds else strLt n m
  | .symNode n cs, .symNode m ds => if n == m then pyLtList M cs ds else strLt n m
  | .symNode _ _, _ => false
  | .nt s, .nt t => if s.name == t.name then false else strLt s.name t.name
  | .nt _, _ => false
  | .pynone, _ => false
  | a, b =>
    match pyKey a, pyKey b with
    | some ka, some kb => TKey.lt ka kb
    | _, _ => false
def pyLtList (M : CModel C) : List (Tree C) → List (Tree C) → Bool
  | [], [] => false
  | [], _ :: _ => true
  | _ :: _, [] => false
  | x :: xs, y :: ys => if treeBEq M x y then pyLtList M xs ys else pyLt M x y
end

/-- Stable insertion into a sorted list: `x` goes before the first element
not strictly below it. -/
def insertSorted (lt : α → α → Bool) (x : α) : List α → List α
  | [] => [x]
  | y :: ys => if lt y x then y :: insertSorted lt x ys else x :: y :: ys

/-- Stable sort by a Boolean comparator.  Python's `sorted` is stable and
for two elements performs exactly the comparison `second < first`; this
agrees with it on the two-element lists the engine sorts. -/
def pySorted (lt : α → α → Bool) : List α → List α
  | [] => []
  | x :: xs => insertSorted lt x (pySorted lt xs)

/- `hash()` on trees, as the structure fed to Python's `hash`.
Value leaves hash their dataclass field tuple (so `Var("1")` and
`String("1")` collide exactly as in Python); a plain `Node` hashes
`(name, children)`; a `SymmetricNode` with placeholder children falls back
to that positional hash, otherwise it hashes `(name, *sorted(children))`;
a placeholder hashes `(name, constraints)`. -/
mutual
def pyHashKey (M : CModel C) : Tree C → HKey
  | .int i => .cons (.int i) .nil
  | .str s => .cons (.str s) .nil
  | .var n => .cons (.str n) .nil
  | .node n cs => .cons (.str n) (.cons (HKey.ofList (pyHashList M cs)) .nil)
  | .symNode n cs =>
    if cs.any Tree.isNt then
      .cons (.str n) (.cons (HKey.ofList (pyHashList M cs)) .nil)
    else
      .cons (.str n)
        (HKey.ofList
          ((pySorted (fun p q => pyLt M p.1 q.1) (cs.zip (pyHashList M cs))).map Prod.snd))
  | .nt s => .cons (.str s.name) (.cons (HKey.ofList (s.constraints.map M.cKey)) .nil)
  | .pynone => .none_
def pyHashList (M : CModel C) : List (Tree C) → List HKey
  | [] => []
  | c :: cs => pyHashKey M c :: pyHashList M cs
end

/- Python `==` on trees.  Dataclass equality is positional and requires
the same class on both sides; `SymmetricNode.__eq__` first compares the
two children collections as Python sets (element identity in a set is
"same hash bucket and `==`"; note this branch ignores the operator names)
and falls back to the positional dataclass equality.  The `Nat` argument
is a totality device only: every recursive call strictly decreases the
combined structural size of the tree arguments, so seeding the fuel with
that size (as `pyEq` below does) makes exhaustion unreachable. -/
mutual
def pyEqF (M : CModel C) : Nat → Tree C → Tree C → Bool
  | 0, _, _ => false
  | _ + 1, .int a, .int b => a == b
  | _ + 1, .str a, .str b => a == b
  | _ + 1, .var a, .var b => a == b
  | f + 1, .node n cs, .node m ds => n == m && pyEqListF M f cs ds
  | f + 1, .symNode n cs, .symNode m ds =>
    (setInclF M f cs ds && setInclF M f ds cs) || (n == m && pyEqListF M f cs ds)
  | _ + 1, .nt s, .nt t => s.name == t.name && constrBEqList M s.constraints t.constraints
  | _ + 1, .pynone, .pynone => true
  | _ + 1, _, _ => false
def pyEqListF (M : CModel C) : Nat → List (Tree C) → List (Tree C) → Bool
  | 0, _, _ => false
  | _ + 1, [], [] => true
  | f + 1, x :: xs, y :: ys => pyEqF M f x y && pyEqListF M f xs ys
  | _ + 1, _, _ => false
def setInclF (M : CModel C) : Nat → List (Tree C) → List (Tree C) → Bool
  | 0, _, _ => false
  | _ + 1, [], _ => true
  | f + 1, x :: xs, ys => setMemF M f x ys && setInclF M f xs ys
def setMemF (M : CModel C) : Nat → Tree C → List (Tree C) → Bool
  | 0, _, _ => false
  | _ + 1, _, [] => false
  | f + 1, x, y :: ys =>
    (pyHashKey M y == pyHashKey M x && pyEqF M f y x) || setMemF M f x ys
end

/-- Python `==` on trees (see `pyEqF`; the fuel strictly dominates the
recursion depth, so this equals the unfueled recursion everywhere). -/
def pyEq (M : CModel C) (a b : Tree C) : Bool :=
  pyEqF M (sizeT a + sizeT b) a b

/-- Modelled from the spec: the working `ProductionRule` class (left-hand
symbol, right-hand side, own constraint tuple) is not among the checked-in
sources — the `grammar.py` present is a stale earlier revision whose
imports no longer resolve, while `enumerative.py` and the tests use the
interface below.  Per the spec, a rule "belongs to one left-hand-side
symbol", its right-hand side is a leaf value, a template or another
symbol, and it "carries its own ordered sequence of constraints, checked
against the fully substituted result of applying that rule". -/
structure ProductionRule (C : Type) where
  lhs : Nonterminal C
  rhs : Tree C
  constraints : List C

/-- `Nonterminal.accepts`: every usage-site constraint accepts the tree. -/
def ntAccepts (M : CModel C) (sym : Nonterminal C) (t : Tree C) : Bool :=
  sym.constraints.all fun c => M.interp c t

/-- Modelled from the spec: `ProductionRule.can_substitute` — acceptance of
a constraint list is the conjunction of `is_valid_entry` over the rule's
own constraints. -/
def canSubstitute (M : CModel C) (r : ProductionRule C) (t : Tree C) : Bool :=
  r.constraints.all fun c => M.interp c t

/-- The grammar's `_maps`: a `defaultdict(list)` from symbol name to the
rules appended for that name, modelled as an association list. -/
abbrev RuleMap (C : Type) := List (String × List (ProductionRule C))

/-- Dictionary lookup; a missing key yields the default empty list. -/
def rulesFor (rules : RuleMap C) (name : String) : List (ProductionRule C) :=
  match rules.find? (fun e => e.1 == name) with
  | some e => e.2
  | none => []

/-- `Grammar.__iadd__`: append the rule to its left-hand symbol's list. -/
def addRule (rules : RuleMap C) (r : ProductionRule C) : RuleMap C :=
  if rules.any (fun e => e.1 == r.lhs.name) then
    rules.map fun e => if e.1 == r.lhs.name then (e.1, e.2 ++ [r]) else e
  else
    rules ++ [(r.lhs.name, [r])]

/-- `Grammar`: a start symbol plus the rule multimap. -/
structure Grammar (C : Type) where
  start : Nonterminal C
  maps : RuleMap C

/-- Incremental grammar construction (`g += rule`). -/
def Grammar.add (g : Grammar C) (r : ProductionRule C) : Grammar C :=
  { g with maps := addRule g.maps r }

/-- `itertools.product`, as CPython computes it: a left fold extending
every partial tuple by each element of the next pool.  The resulting order
has the leftmost pool varying slowest. -/
def itertoolsProduct (pools : List (List α)) : List (List α) :=
  pools.foldl (fun acc pool => acc.flatMap fun xs => pool.map fun y => xs ++ [y]) [[]]

/-- `Grammar.perform_substitution(production, depth)`.  The `fuel`
argument bounds the recursion depth exactly as Python's interpreter stack
does: chains of alias rules recurse without consuming `depth` and Python
raises `RecursionError` on a cyclic chain, so the function is partial;
out of fuel we produce nothing.  Otherwise: non-positive depth produces
nothing; a bare symbol expands each of its rules at the same depth,
filtered through the symbol's `accepts`; a rule whose right-hand side is
another symbol expands that symbol's rules at the same depth, filtered
through the rule's constraints; a template expands each placeholder child
at `depth - 1`, substitutes every combination (in `itertools.product`
order) and filters through the rule's constraints; a leaf value is
produced if the rule's constraints accept it.  A right-hand side that is
none of these raises `ValueError` in Python, producing nothing. -/
def psubProd (M : CModel C) (rules : RuleMap C) :
    Nat → ProductionRule C ⊕ Nonterminal C → Int → List (Tree C)
  | 0, _, _ => []
  | fuel + 1, p, depth =>
    if depth ≤ 0 then []
    else
      match p with
      | .inr sym =>
        (rulesFor rules sym.name).flatMap fun r =>
          (psubProd M rules fuel (.inl r) depth).filter fun t => ntAccepts M sym t
      | .inl rule =>
        match rule.rhs with
        | .nt sym =>
          ((rulesFor rules sym.name).flatMap fun r =>
            psubProd M rules fuel (.inl r) depth).filter fun t => canSubstitute M rule t
        | .node n cs =>
          (itertoolsProduct ((holesOf cs).map fun h =>
              psubProd M rules fuel (.inr h) (depth - 1))).filterMap fun fill =>
            let newNode := Tree.replaceChildren (.node n cs) (holeIndices cs) fill
            if canSubstitute M rule newNode then some newNode else none
        | .symNode n cs =>
          (itertoolsProduct ((holesOf cs).map fun h =>
              psubProd M rules fuel (.inr h) (depth - 1))).filterMap fun fill =>
            let newNode := Tree.replaceChildren (.symNode n cs) (holeIndices cs) fill
            if canSubstitute M rule newNode then some newNode else none
        | .int i => if canSubstitute M rule (.int i) then [.int i] else []
        | .str s => if canSubstitute M rule (.str s) then [.str s] else []
        | .var v => if canSubstitute M rule (.var v) then [.var v] else []
        | .pynone => []

/-- `EquivalenceScreen` membership: Python's `in` on a set finds an
element in the probe's hash bucket that compares `==` to it. -/
def screenContains (M : CModel C) (screen : List (Tree C)) (t : Tree C) : Bool :=
  screen.any fun y => pyHashKey M y == pyHashKey M t && pyEq M y t

/-- One step of the screening loop of `enumerate_bottom_up`: a candidate
passing `is_useful_program` is yielded (appended to the output) and then
registered; a duplicate is dropped. -/
def scrStep (M : CModel C) (acc : List (Tree C) × List (Tree C)) (t : Tree C) :
    List (Tree C) × List (Tree C) :=
  if screenContains M acc.2 t then acc else (acc.1 ++ [t], t :: acc.2)

/-- The screening loop of `enumerate_bottom_up` over a candidate stream. -/
def screenFold (M : CModel C) (screen : List (Tree C)) (items : List (Tree C)) :
    List (Tree C) × List (Tree C) :=
  items.foldl (scrStep M) ([], screen)

/-- `Grammar.enumerate_bottom_up(depth, screen)`: expand every rule of the
start symbol's name and screen the results; the pair is (yielded trees,
screen state afterwards). -/
def enumerateBottomUp (M : CModel C) (g : Grammar C) (fuel : Nat) (depth : Int)
    (screen : List (Tree C)) : List (Tree C) × List (Tree C) :=
  screenFold M screen
    ((rulesFor g.maps g.start.name).flatMap fun prod =>
      psubProd M g.maps fuel (.inl prod) depth)

/-- One depth of an `enumerate_forever` session: run `enumerate_bottom_up`
at depth `d` with the accumulated screen, appending its yields. -/
def fevStep (M : CModel C) (g : Grammar C) (fuel : Nat)
    (acc : List (Tree C) × List (Tree C)) (d : Nat) : List (Tree C) × List (Tree C) :=
  let r := enumerateBottomUp M g fuel (Int.ofNat d) acc.2
  (acc.1 ++ r.1, r.2)

/-- `Grammar.enumerate_forever(screen)`: `for depth in range(0, 10000):
yield from enumerate_bottom_up(depth, screen)`. -/
def enumerateForever (M : CModel C) (g : Grammar C) (fuel : Nat)
    (screen : List (Tree C)) : List (Tree C) × List (Tree C) :=
  (List.range 10000).foldl (fevStep M g fuel) ([], screen)

/-- The cumulative output and screen state of an `enumerate_forever`
session after its first `n` depths (depth 0 up to `n - 1`). -/
def depthState (M : CModel C) (g : Grammar C) (fuel : Nat)
    (screen : List (Tree C)) : Nat → List (Tree C) × List (Tree C)
  | 0 => ([], screen)
  | n + 1 => fevStep M g fuel (depthState M g fuel screen n) n

/-- The evaluator's failures: both forms are `KeyError` in Python — a
variable missing from the bindings, or an operator name missing from the
evaluator's table. -/
inductive EvalErr where
  | missingBinding (name : String)
  | missingOp (name : String)
deriving DecidableEq

/- `ASTEvaluator.eval(node, binds)`: a variable resolves through the
bindings (raising `KeyError` if absent), `Int`/`String` leaves return
their payload, a node looks its operator up in the table (raising
`KeyError` if absent, before the children are evaluated left to right) and
applies it to the node and the child values.  A placeholder (or `None`)
matches no case of the Python `match`, so the function falls through and
returns `None`. -/
mutual
def evalAST (evals : String → Option (Tree C → List PyVal → PyVal))
    (binds : String → Option PyVal) : Tree C → Except EvalErr PyVal
  | .var n =>
    match binds n with
    | some v => .ok v
    | none => .error (.missingBinding n)
  | .int i => .ok (.int i)
  | .str s => .ok (.str s)
  | .node n cs =>
    match evals n with
    | none => .error (.missingOp n)
    | some f =>
      match evalASTList evals binds cs with
      | .error e => .error e
      | .ok vs => .ok (f (.node n cs) vs)
  | .symNode n cs =>
    match evals n with
    | none => .error (.missingOp n)
    | some f =>
      match evalASTList evals binds cs with
      | .error e => .error e
      | .ok vs => .ok (f (.symNode n cs) vs)
  | .nt _ => .ok .none_
  | .pynone => .ok .none_
def evalASTList (evals : String → Option (Tree C → List PyVal → PyVal))
    (binds : String → Option PyVal) : List (Tree C) → Except EvalErr (List PyVal)
  | [] => .ok []
  | c :: cs =>
    match evalAST evals binds c with
    | .error e => .error e
    | .ok v =>
      match evalASTList evals binds cs with
      | .error e => .error e
      | .ok vs => .ok (v :: vs)
end

/-- `DoesNotEvaluateTo.is_valid_entry`: evaluate the tree under the fixed
bindings; `except KeyError` turns any lookup failure (both `EvalErr`
forms are `KeyError`s) into acceptance, otherwise accept iff the value
differs from the forbidden one. -/
def isValidEntryDNE (evals : String → Option (Tree C → List PyVal → PyVal))
    (binds : String → Option PyVal) (v : PyVal) (t : Tree C) : Bool :=
  match evalAST evals binds t with
  | .error _ => true
  | .ok r => r != v

/- A tree is complete iff no reachable descendant is a placeholder. -/
mutual
def noNt : Tree C → Bool
  | .nt _ => false
  | .node _ cs => noNtList cs
  | .symNode _ cs => noNtList cs
  | _ => true
def noNtList : List (Tree C) → Bool
  | [] => true
  | c :: cs => noNt c && noNtList cs
end

/-- A template child is a placeholder or fully concrete (spec §3: children
of a rule template "may themselves be symbols (placeholders) or fully
concrete values/templates"). -/
def wfTemplateChild (c : Tree C) : Bool := c.isNt || noNt c

/-- A rule is well formed when its template children satisfy the data
model of spec §3; non-template right-hand sides are unrestricted. -/
def wfRule (r : ProductionRule C) : Bool :=
  match r.rhs with
  | .node _ cs => cs.all wfTemplateChild
  | .symNode _ cs => cs.all wfTemplateChild
  | _ => true

/-- All rules in the multimap are well formed. -/
def wfRuleMap (rules : RuleMap C) : Bool := rules.all fun e => e.2.all wfRule

/-- All rules of the grammar are well formed. -/
def wfGrammar (g : Grammar C) : Bool := wfRuleMap g.maps

/-- A template child that is a placeholder or an atomic leaf (no nested
concrete compound structure). -/
def flatTemplateChild (c : Tree C) : Bool := c.isNt || c.isLeaf

/-- A rule whose template children are placeholders or atomic leaves. -/
def flatRule (r : ProductionRule C) : Bool :=
  match r.rhs with
  | .node _ cs => cs.all flatTemplateChild
  | .symNode _ cs => cs.all flatTemplateChild
  | _ => true

/-- All rules in the multimap are flat. -/
def flatRuleMap (rules : RuleMap C) : Bool := rules.all fun e => e.2.all flatRule

/- The operator-nesting depth of a tree: leaves are 0, a compound node is
one more than the deepest child. -/
mutual
def compoundDepth : Tree C → Nat
  | .node _ cs => 1 + compoundDepthList cs
  | .symNode _ cs => 1 + compoundDepthList cs
  | _ => 0
def compoundDepthList : List (Tree C) → Nat
  | [] => 0
  | c :: cs => max (compoundDepth c) (compoundDepthList cs)
end

/-- The trivial constraint model with no information: constraints are
`Unit`, always accept, always compare equal, hash to the empty tuple. -/
def MUnit : CModel Unit := ⟨fun _ _ => true, fun _ _ => true, fun _ => .nil⟩

/-- A constraint model over `Bool` where the constraint `false` rejects
every tree and `true` accepts every tree. -/
def MBool : CModel Bool := ⟨fun b _ => b, fun a b => a == b, fun _ => .nil⟩

/-- The start symbol `A` of the concrete example grammars. -/
def ntA : Nonterminal Unit := ⟨"A", []⟩

/-- The leaf category `val` of the concrete example grammars. -/
def ntVal : Nonterminal Unit := ⟨"val", []⟩

/-- A concrete grammar whose symmetric template can produce the same
program with its children in both orders:
`A ::= add(val, val)` (symmetric), `val ::= Int(1) | Var("1")`. -/
def gSym : Grammar Unit :=
  (((Grammar.mk ntA []).add ⟨ntA, .symNode "add" [.nt ntVal, .nt ntVal], []⟩).add
      ⟨ntVal, .int 1, []⟩).add
    ⟨ntVal, .var "1", []⟩

/-- A concrete grammar with an infinite language:
`A ::= Int(1) | add(A, A)` (plain node). -/
def gInf : Grammar Unit :=
  ((Grammar.mk ntA []).add ⟨ntA, .int 1, []⟩).add
    ⟨ntA, .node "add" [.nt ntA, .nt ntA], []⟩

/-- The full binary `add` tree of nesting depth `n` over the leaf
`Int(1)`: an element of `gInf`'s language at every sufficient depth. -/
def deepAdd : Nat → Tree Unit
  | 0 => .int 1
  | n + 1 => .node "add" [deepAdd n, deepAdd n]

/-- A grammar whose start symbol carries a rejecting constraint (`false`
in `MBool`), while its single rule `A ::= Int(1)` is unconstrained. -/
def gBad : Grammar Bool :=
  (Grammar.mk ⟨"A", [false]⟩ []).add ⟨⟨"A", []⟩, .int 1, []⟩

/-- Replace a grammar's start symbol constraints, keeping its name. -/
def setStartConstraints (g : Grammar C) (cs : List C) : Grammar C :=
  { g with start := ⟨g.start.name, cs⟩ }

/-- What `replace_children(holes_indices, fill)` computes on a plain node:
each placeholder child takes the next replacement in order, concrete
children are kept (the exhausted-iterator fallback mirrors `replaceAux`
and is unreachable when `fill` has one entry per placeholder). -/
def zipFill : List (Tree C) → List (Tree C) → List (Tree C)
  | [], _ => []
  | c :: cs, repls =>
    if c.isNt then
      match repls with
      | r :: rs => r :: zipFill cs rs
      | [] => c :: zipFill cs []
    else
      c :: zipFill cs repls

/-- Enough interpreter stack for `perform_substitution` to build the full
`add` tree of depth `n` in `gInf`: two frames per nesting level. -/
def fuelFor : Nat → Nat
  | 0 => 2
  | n + 1 => fuelFor n + 2

/-- Well-formedness of a `perform_substitution` argument: a rule must be
well formed, a bare symbol carries no template. -/
def wfProd : ProductionRule C ⊕ Nonterminal C → Bool
  | .inl r => wfRule r
  | .inr _ => true

/-- Flatness of a `perform_substitution` argument. -/
def flatProd : ProductionRule C ⊕ Nonterminal C → Bool
  | .inl r => flatRule r
  | .inr _ => true

/-! ### Helper lemmas -/

theorem itertoolsProduct_nil : itertoolsProduct ([] : List (List α)) = [[]] := rfl

theorem prod_foldl_general (ps : List (List α)) :
    ∀ acc : List (List α),
      ps.foldl (fun acc pool => acc.flatMap fun xs => pool.map fun y => xs ++ [y]) acc =
        acc.flatMap fun xs => (itertoolsProduct ps).map fun ys => xs ++ ys := by
  induction ps with
  | nil =>
    intro acc
    simp [itertoolsProduct]
  | cons p ps ih =>
    intro acc
    rw [List.foldl_cons, ih]
    conv_rhs => rw [itertoolsProduct, List.foldl_cons, ih]
    simp only [List.flatMap_assoc, List.flatMap_map, List.map_flatMap, List.map_map,
      List.flatMap_nil, List.flatMap_cons, List.append_nil, Function.comp]
    simp [Function.comp_def, List.append_assoc]

theorem itertoolsProduct_cons (p : List α) (ps : List (List α)) :
    itertoolsProduct (p :: ps) =
      p.flatMap fun x => (itertoolsProduct ps).map fun xs => x :: xs := by
  rw [itertoolsProduct, List.foldl_cons, prod_foldl_general]
  simp [List.flatMap_map, List.map_flatMap]

theorem mem_of_mem_itertoolsProduct {Ls : List (List α)} {xs : List α}
    (hxs : xs ∈ itertoolsProduct Ls) : ∀ x ∈ xs, ∃ l ∈ Ls, x ∈ l := by
  induction Ls generalizing xs with
  | nil =>
    rw [itertoolsProduct_nil] at hxs
    simp only [List.mem_singleton] at hxs
    subst hxs
    intro x hx
    cases hx
  | cons p ps ih =>
    rw [itertoolsProduct_cons] at hxs
    rw [List.mem_flatMap] at hxs
    obtain ⟨a, ha, hxs⟩ := hxs
    rw [List.mem_map] at hxs
    obtain ⟨ys, hys, rfl⟩ := hxs
    intro x hx
    rcases List.mem_cons.mp hx with rfl | hx
    · exact ⟨p, List.mem_cons_self _ _, ha⟩
    · obtain ⟨l, hl, hxl⟩ := ih hys x hx
      exact ⟨l, List.mem_cons_of_mem _ hl, hxl⟩

theorem length_of_mem_itertoolsProduct {Ls : List (List α)} {xs : List α}
    (hxs : xs ∈ itertoolsProduct Ls) : xs.length = Ls.length := by
  induction Ls generalizing xs with
  | nil =>
    rw [itertoolsProduct_nil] at hxs
    simp only [List.mem_singleton] at hxs
    simp [hxs]
  | cons p ps ih =>
    rw [itertoolsProduct_cons, List.mem_flatMap] at hxs
    obtain ⟨a, _, hxs⟩ := hxs
    rw [List.mem_map] at hxs
    obtain ⟨ys, hys, rfl⟩ := hxs
    simp [ih hys]

theorem mem_itertoolsProduct_pair {p q : List α} {x y : α} (hx : x ∈ p) (hy : y ∈ q) :
    [x, y] ∈ itertoolsProduct [p, q] := by
  rw [itertoolsProduct_cons]
  rw [List.mem_flatMap]
  refine ⟨x, hx, ?_⟩
  rw [List.mem_map]
  refine ⟨[y], ?_, rfl⟩
  rw [itertoolsProduct_cons]
  rw [List.mem_flatMap]
  exact ⟨y, hy, by simp [itertoolsProduct_nil]⟩

theorem screenFold_mem (M : CModel C) (items : List (Tree C)) :
    ∀ (acc : List (Tree C) × List (Tree C)) (t : Tree C),
      t ∈ (items.foldl (scrStep M) acc).1 → t ∈ acc.1 ∨ t ∈ items := by
  induction items with
  | nil => intro acc t ht; exact Or.inl ht
  | cons x xs ih =>
    intro acc t ht
    rw [List.foldl_cons] at ht
    rcases ih (scrStep M acc x) t ht with h | h
    · unfold scrStep at h
      split at h
      · exact Or.inl h
      · simp only [List.mem_append, List.mem_singleton] at h
        rcases h with h | rfl
        · exact Or.inl h
        · exact Or.inr (List.mem_cons_self _ _)
    · exact Or.inr (List.mem_cons_of_mem _ h)

theorem enumerateBottomUp_mem {M : CModel C} {g : Grammar C} {fuel : Nat} {d : Int}
    {screen : List (Tree C)} {t : Tree C}
    (ht : t ∈ (enumerateBottomUp M g fuel d screen).1) :
    ∃ r ∈ rulesFor g.maps g.start.name, t ∈ psubProd M g.maps fuel (.inl r) d := by
  unfold enumerateBottomUp screenFold at ht
  rcases screenFold_mem M _ _ _ ht with h | h
  · cases h
  · exact List.mem_flatMap.mp h

theorem range_foldl_eq_depthState (M : CModel C) (g : Grammar C) (fuel : Nat)
    (screen : List (Tree C)) :
    ∀ n, (List.range n).foldl (fevStep M g fuel) ([], screen) =
      depthState M g fuel screen n := by
  intro n
  induction n with
  | zero => rfl
  | succ n ih =>
    rw [List.range_succ, List.foldl_append, ih]
    rfl

theorem enumerateForever_eq_depthState (M : CModel C) (g : Grammar C) (fuel : Nat)
    (screen : List (Tree C)) :
    enumerateForever M g fuel screen = depthState M g fuel screen 10000 :=
  range_foldl_eq_depthState M g fuel screen 10000

theorem depthState_mem {M : CModel C} {g : Grammar C} {fuel : Nat}
    {screen : List (Tree C)} {t : Tree C} :
    ∀ {n}, t ∈ (depthState M g fuel screen n).1 →
      ∃ d, d < n ∧ ∃ r ∈ rulesFor g.maps g.start.name,
        t ∈ psubProd M g.maps fuel (.inl r) (Int.ofNat d) := by
  intro n
  induction n with
  | zero => intro ht; cases ht
  | succ n ih =>
    intro ht
    simp only [depthState, fevStep, List.mem_append] at ht
    rcases ht with ht | ht
    · obtain ⟨d, hd, hrest⟩ := ih ht
      exact ⟨d, Nat.lt_succ_of_lt hd, hrest⟩
    · obtain ⟨r, hr, hmem⟩ := enumerateBottomUp_mem ht
      exact ⟨n, Nat.lt_succ_self n, r, hr, hmem⟩

theorem depthState_monotone (M : CModel C) (g : Grammar C) (fuel : Nat)
    (screen : List (Tree C)) {n m : Nat} (h : n ≤ m) :
    (depthState M g fuel screen n).1 <+: (depthState M g fuel screen m).1 := by
  induction m with
  | zero =>
    rw [Nat.le_zero.mp h]
  | succ m ih =>
    by_cases he : n = m + 1
    · subst he
      exact List.prefix_rfl
    · have hle : n ≤ m := Nat.lt_succ_iff.mp (Nat.lt_of_le_of_ne h he)
      refine (ih hle).trans ?_
      simp only [depthState, fevStep]
      exact List.prefix_append _ _

theorem mem_holeIndicesFrom_le {cs : List (Tree C)} :
    ∀ {i j : Nat}, j ∈ holeIndicesFrom i cs → i ≤ j := by
  induction cs with
  | nil => intro i j h; cases h
  | cons c cs ih =>
    intro i j h
    unfold holeIndicesFrom at h
    split at h
    · rcases List.mem_cons.mp h with rfl | h
      · exact Nat.le_refl j
      · exact Nat.le_of_succ_le (ih h)
    · exact Nat.le_of_succ_le (ih h)

theorem holeIndicesFrom_cons (i : Nat) (c : Tree C) (cs : List (Tree C)) :
    holeIndicesFrom i (c :: cs) =
      if c.isNt = true then i :: holeIndicesFrom (i + 1) cs
      else holeIndicesFrom (i + 1) cs := rfl

theorem replaceAux_eq_zipFill (cs : List (Tree C)) :
    ∀ (i : Nat) (ids : List Nat) (repls : List (Tree C)),
      (∀ j, i ≤ j → (ids.contains j = true ↔ j ∈ holeIndicesFrom i cs)) →
      replaceAux ids i cs repls = zipFill cs repls := by
  induction cs with
  | nil => intro i ids repls _; cases repls <;> rfl
  | cons c cs ih =>
    intro i ids repls hids
    have hnext : ∀ j, i + 1 ≤ j → (ids.contains j = true ↔ j ∈ holeIndicesFrom (i + 1) cs) := by
      intro j hj
      rw [hids j (Nat.le_of_succ_le hj), holeIndicesFrom_cons]
      split
      · constructor
        · intro h
          rcases List.mem_cons.mp h with rfl | h
          · omega
          · exact h
        · exact List.mem_cons_of_mem _
      · exact Iff.rfl
    have hi := hids i (Nat.le_refl i)
    rw [holeIndicesFrom_cons] at hi
    by_cases hnt : c.isNt = true
    · rw [if_pos hnt] at hi
      have hci : ids.contains i = true := hi.mpr (List.mem_cons_self _ _)
      simp only [replaceAux, zipFill, hci, hnt, if_true]
      cases repls with
      | nil =>
        show c :: replaceAux ids (i + 1) cs [] = c :: zipFill cs []
        rw [ih (i + 1) ids [] hnext]
      | cons r rs =>
        show r :: replaceAux ids (i + 1) cs rs = r :: zipFill cs rs
        rw [ih (i + 1) ids rs hnext]
    · have hnf : c.isNt = false := by
        revert hnt
        cases c.isNt <;> simp
      rw [if_neg (by simp [hnf])] at hi
      have hci : ids.contains i = false := by
        by_contra hc
        have ht : ids.contains i = true := by
          revert hc
          cases ids.contains i <;> simp
        have := mem_holeIndicesFrom_le (hi.mp ht)
        omega
      simp only [replaceAux, zipFill, hci, hnf, Bool.false_eq_true, if_false]
      rw [ih (i + 1) ids repls hnext]

theorem replaceChildren_node_eq_zipFill (n : String) (cs repls : List (Tree C)) :
    Tree.replaceChildren (.node n cs) (holeIndices cs) repls = .node n (zipFill cs repls) := by
  show Tree.node n (replaceAux (holeIndices cs) 0 cs repls) = _
  rw [replaceAux_eq_zipFill cs 0 (holeIndices cs) repls]
  intro j _
  unfold holeIndices
  exact ⟨fun h => List.elem_iff.mp h, fun h => List.elem_iff.mpr h⟩

theorem noNtList_iff {cs : List (Tree C)} : noNtList cs = true ↔ ∀ c ∈ cs, noNt c = true := by
  induction cs with
  | nil => simp [noNtList]
  | cons c cs ih =>
    unfold noNtList
    rw [Bool.and_eq_true, ih]
    constructor
    · rintro ⟨hc, hcs⟩ x hx
      rcases List.mem_cons.mp hx with rfl | hx
      · exact hc
      · exact hcs x hx
    · intro h
      exact ⟨h c (List.mem_cons_self _ _), fun x hx => h x (List.mem_cons_of_mem _ hx)⟩

theorem holesOf_eq_nil_isNt {cs : List (Tree C)} (h : holesOf cs = []) :
    ∀ c ∈ cs, c.isNt = false := by
  induction cs with
  | nil => intro c hc; cases hc
  | cons c cs ih =>
    intro x hx
    cases c with
    | nt s => exact absurd h (by simp [holesOf])
    | int i =>
      rcases List.mem_cons.mp hx with rfl | hx
      · rfl
      · exact ih (by simpa [holesOf] using h) x hx
    | str s =>
      rcases List.mem_cons.mp hx with rfl | hx
      · rfl
      · exact ih (by simpa [holesOf] using h) x hx
    | var v =>
      rcases List.mem_cons.mp hx with rfl | hx
      · rfl
      · exact ih (by simpa [holesOf] using h) x hx
    | node m ds =>
      rcases List.mem_cons.mp hx with rfl | hx
      · rfl
      · exact ih (by simpa [holesOf] using h) x hx
    | symNode m ds =>
      rcases List.mem_cons.mp hx with rfl | hx
      · rfl
      · exact ih (by simpa [holesOf] using h) x hx
    | pynone =>
      rcases List.mem_cons.mp hx with rfl | hx
      · rfl
      · exact ih (by simpa [holesOf] using h) x hx

theorem zipFill_mem {cs repls : List (Tree C)} :
    ∀ x ∈ zipFill cs repls, x ∈ cs ∨ x ∈ repls := by
  induction cs generalizing repls with
  | nil => intro x hx; cases hx
  | cons c cs ih =>
    intro x hx
    unfold zipFill at hx
    split at hx
    · cases repls with
      | nil =>
        rcases List.mem_cons.mp hx with rfl | hx
        · exact Or.inl (List.mem_cons_self _ _)
        · rcases ih x hx with h | h
          · exact Or.inl (List.mem_cons_of_mem _ h)
          · cases h
      | cons r rs =>
        rcases List.mem_cons.mp hx with rfl | hx
        · exact Or.inr (List.mem_cons_self _ _)
        · rcases ih x hx with h | h
          · exact Or.inl (List.mem_cons_of_mem _ h)
          · exact Or.inr (List.mem_cons_of_mem _ h)
    · rcases List.mem_cons.mp hx with rfl | hx
      · exact Or.inl (List.mem_cons_self _ _)
      · rcases ih x hx with h | h
        · exact Or.inl (List.mem_cons_of_mem _ h)
        · exact Or.inr h

theorem zipFill_noNt {cs : List (Tree C)} :
    ∀ {repls : List (Tree C)},
      (∀ c ∈ cs, c.isNt = true ∨ noNt c = true) → (∀ r ∈ repls, noNt r = true) →
      (holesOf cs).length ≤ repls.length → noNtList (zipFill cs repls) = true := by
  induction cs with
  | nil => intro repls _ _ _; rfl
  | cons c cs ih =>
    intro repls hwf hrep hlen
    unfold zipFill
    by_cases hnt : c.isNt = true
    · rw [if_pos hnt]
      cases c with
      | nt s =>
        cases repls with
        | nil => simp [holesOf] at hlen
        | cons r rs =>
          show (noNt r && noNtList (zipFill cs rs)) = true
          rw [Bool.and_eq_true]
          refine ⟨hrep r (List.mem_cons_self _ _), ih ?_ ?_ ?_⟩
          · exact fun x hx => hwf x (List.mem_cons_of_mem _ hx)
          · exact fun x hx => hrep x (List.mem_cons_of_mem _ hx)
          · have : holesOf (Tree.nt s :: cs) = s :: holesOf cs := rfl
            rw [this] at hlen
            simpa using hlen
      | int i => cases hnt
      | str s => cases hnt
      | var v => cases hnt
      | node m ds => cases hnt
      | symNode m ds => cases hnt
      | pynone => cases hnt
    · rw [if_neg hnt]
      show (noNt c && noNtList (zipFill cs repls)) = true
      rw [Bool.and_eq_true]
      have hc : noNt c = true := by
        rcases hwf c (List.mem_cons_self _ _) with h | h
        · exact absurd h hnt
        · exact h
      refine ⟨hc, ih ?_ hrep ?_⟩
      · exact fun x hx => hwf x (List.mem_cons_of_mem _ hx)
      · have : holesOf (c :: cs) = holesOf cs := by
          cases c with
          | nt s => cases hnt rfl
          | int i => rfl
          | str s => rfl
          | var v => rfl
          | node m ds => rfl
          | symNode m ds => rfl
          | pynone => rfl
        rwa [this] at hlen

theorem psubProd_nonpos (M : CModel C) (rules : RuleMap C) :
    ∀ (fuel : Nat) (p : ProductionRule C ⊕ Nonterminal C) (d : Int), d ≤ 0 →
      psubProd M rules fuel p d = [] := by
  intro fuel p d hd
  cases fuel with
  | zero => rfl
  | succ f =>
    simp only [psubProd]
    rw [if_pos hd]

theorem psubProd_inr (M : CModel C) (rules : RuleMap C) (f : Nat) (sym : Nonterminal C)
    (d : Int) (hd : 0 < d) :
    psubProd M rules (f + 1) (.inr sym) d =
      (rulesFor rules sym.name).flatMap fun r =>
        (psubProd M rules f (.inl r) d).filter fun t => ntAccepts M sym t := by
  simp only [psubProd]
  rw [if_neg (by omega)]

theorem psubProd_alias (M : CModel C) (rules : RuleMap C) (f : Nat)
    (rule : ProductionRule C) (sym : Nonterminal C) (d : Int) (hd : 0 < d)
    (hrh : rule.rhs = .nt sym) :
    psubProd M rules (f + 1) (.inl rule) d =
      ((rulesFor rules sym.name).flatMap fun r =>
        psubProd M rules f (.inl r) d).filter fun t => canSubstitute M rule t := by
  simp only [psubProd]
  rw [if_neg (by omega), hrh]

theorem psubProd_node (M : CModel C) (rules : RuleMap C) (f : Nat)
    (rule : ProductionRule C) (n : String) (cs : List (Tree C)) (d : Int) (hd : 0 < d)
    (hrh : rule.rhs = .node n cs) :
    psubProd M rules (f + 1) (.inl rule) d =
      (itertoolsProduct ((holesOf cs).map fun h =>
          psubProd M rules f (.inr h) (d - 1))).filterMap fun fill =>
        if canSubstitute M rule (Tree.replaceChildren (.node n cs) (holeIndices cs) fill) then
          some (Tree.replaceChildren (.node n cs) (holeIndices cs) fill)
        else none := by
  simp only [psubProd]
  rw [if_neg (by omega), hrh]

theorem psubProd_symNode (M : CModel C) (rules : RuleMap C) (f : Nat)
    (rule : ProductionRule C) (n : String) (cs : List (Tree C)) (d : Int) (hd : 0 < d)
    (hrh : rule.rhs = .symNode n cs) :
    psubProd M rules (f + 1) (.inl rule) d =
      (itertoolsProduct ((holesOf cs).map fun h =>
          psubProd M rules f (.inr h) (d - 1))).filterMap fun fill =>
        if canSubstitute M rule (Tree.replaceChildren (.symNode n cs) (holeIndices cs) fill) then
          some (Tree.replaceChildren (.symNode n cs) (holeIndices cs) fill)
        else none := by
  simp only [psubProd]
  rw [if_neg (by omega), hrh]

theorem psubProd_value_int (M : CModel C) (rules : RuleMap C) (f : Nat)
    (rule : ProductionRule C) (i : Int) (d : Int) (hd : 0 < d) (hrh : rule.rhs = .int i) :
    psubProd M rules (f + 1) (.inl rule) d =
      if canSubstitute M rule (.int i) then [.int i] else [] := by
  simp only [psubProd]
  rw [if_neg (by omega), hrh]

theorem psubProd_value_str (M : CModel C) (rules : RuleMap C) (f : Nat)
    (rule : ProductionRule C) (s : String) (d : Int) (hd : 0 < d) (hrh : rule.rhs = .str s) :
    psubProd M rules (f + 1) (.inl rule) d =
      if canSubstitute M rule (.str s) then [.str s] else [] := by
  simp only [psubProd]
  rw [if_neg (by omega), hrh]

theorem psubProd_value_var (M : CModel C) (rules : RuleMap C) (f : Nat)
    (rule : ProductionRule C) (v : String) (d : Int) (hd : 0 < d) (hrh : rule.rhs = .var v) :
    psubProd M rules (f + 1) (.inl rule) d =
      if canSubstitute M rule (.var v) then [.var v] else [] := by
  simp only [psubProd]
  rw [if_neg (by omega), hrh]

theorem psubProd_rhs_pynone (M : CModel C) (rules : RuleMap C) (f : Nat)
    (rule : ProductionRule C) (d : Int) (hrh : rule.rhs = .pynone) :
    psubProd M rules (f + 1) (.inl rule) d = [] := by
  simp only [psubProd]
  split
  · rfl
  · rw [hrh]

theorem wfRule_of_mem_rulesFor {rules : RuleMap C} (hwf : wfRuleMap rules = true)
    {name : String} {r : ProductionRule C} (hr : r ∈ rulesFor rules name) :
    wfRule r = true := by
  unfold rulesFor at hr
  rcases hfind : rules.find? (fun e => e.1 == name) with _ | e
  · rw [hfind] at hr
    cases hr
  · rw [hfind] at hr
    have he := List.mem_of_find?_eq_some hfind
    unfold wfRuleMap at hwf
    rw [List.all_eq_true] at hwf
    have := hwf e he
    rw [List.all_eq_true] at this
    exact this r hr

theorem flatRule_of_mem_rulesFor {rules : RuleMap C} (hfl : flatRuleMap rules = true)
    {name : String} {r : ProductionRule C} (hr : r ∈ rulesFor rules name) :
    flatRule r = true := by
  unfold rulesFor at hr
  rcases hfind : rules.find? (fun e => e.1 == name) with _ | e
  · rw [hfind] at hr
    cases hr
  · rw [hfind] at hr
    have he := List.mem_of_find?_eq_some hfind
    unfold flatRuleMap at hfl
    rw [List.all_eq_true] at hfl
    have := hfl e he
    rw [List.all_eq_true] at this
    exact this r hr

theorem psub_noNt (M : CModel C) (rules : RuleMap C) (hwf : wfRuleMap rules = true) :
    ∀ (fuel : Nat) (p : ProductionRule C ⊕ Nonterminal C) (d : Int) (t : Tree C),
      wfProd p = true → t ∈ psubProd M rules fuel p d → noNt t = true := by
  intro fuel
  induction fuel with
  | zero =>
    intro p d t _ ht
    cases ht
  | succ f ih =>
    intro p d t hp ht
    by_cases hd : d ≤ 0
    · rw [psubProd_nonpos M rules _ p d hd] at ht
      cases ht
    · have hd : 0 < d := by omega
      cases p with
      | inr sym =>
        rw [psubProd_inr M rules f sym d hd, List.mem_flatMap] at ht
        obtain ⟨r, hr, ht⟩ := ht
        rw [List.mem_filter] at ht
        exact ih (.inl r) d t (wfRule_of_mem_rulesFor hwf hr) ht.1
      | inl rule =>
        cases hrh : rule.rhs with
        | int i =>
          rw [psubProd_value_int M rules f rule i d hd hrh] at ht
          split at ht
          · rw [List.mem_singleton] at ht
            subst ht
            rfl
          · cases ht
        | str s =>
          rw [psubProd_value_str M rules f rule s d hd hrh] at ht
          split at ht
          · rw [List.mem_singleton] at ht
            subst ht
            rfl
          · cases ht
        | var v =>
          rw [psubProd_value_var M rules f rule v d hd hrh] at ht
          split at ht
          · rw [List.mem_singleton] at ht
            subst ht
            rfl
          · cases ht
        | node n cs =>
          rw [psubProd_node M rules f rule n cs d hd hrh, List.mem_filterMap] at ht
          obtain ⟨fill, hfill, hF⟩ := ht
          split at hF
          · rw [Option.some_inj] at hF
            subst hF
            rw [replaceChildren_node_eq_zipFill]
            show noNtList (zipFill cs fill) = true
            have hwfr : wfRule rule = true := hp
            rw [wfRule, hrh, List.all_eq_true] at hwfr
            refine zipFill_noNt ?_ ?_ ?_
            · intro c hc
              have := hwfr c hc
              rw [wfTemplateChild, Bool.or_eq_true] at this
              exact this
            · intro r hr
              obtain ⟨pool, hpool, hrp⟩ := mem_of_mem_itertoolsProduct hfill r hr
              rw [List.mem_map] at hpool
              obtain ⟨h, _, rfl⟩ := hpool
              exact ih (.inr h) (d - 1) r rfl hrp
            · have := length_of_mem_itertoolsProduct hfill
              rw [List.length_map] at this
              omega
          · cases hF
        | symNode n cs =>
          rw [psubProd_symNode M rules f rule n cs d hd hrh, List.mem_filterMap] at ht
          obtain ⟨fill, hfill, hF⟩ := ht
          have hfillmem : ∀ r ∈ fill, noNt r = true := by
            intro r hr
            obtain ⟨pool, hpool, hrp⟩ := mem_of_mem_itertoolsProduct hfill r hr
            rw [List.mem_map] at hpool
            obtain ⟨h, _, rfl⟩ := hpool
            exact ih (.inr h) (d - 1) r rfl hrp
          have hfilllen := length_of_mem_itertoolsProduct hfill
          rw [List.length_map] at hfilllen
          have hwfr : wfRule rule = true := hp
          rw [wfRule, hrh, List.all_eq_true] at hwfr
          split at hF
          · rw [Option.some_inj] at hF
            subst hF
            match fill, hfillmem, hfilllen with
            | [], _, hlen =>
              show noNtList cs = true
              have hnil : holesOf cs = [] := by
                have hl0 : (holesOf cs).length = 0 := by simpa using hlen.symm
                exact List.length_eq_zero.mp hl0
              rw [noNtList_iff]
              intro c hc
              have hw := hwfr c hc
              rw [wfTemplateChild, Bool.or_eq_true] at hw
              rcases hw with hw | hw
              · rw [holesOf_eq_nil_isNt hnil c hc] at hw
                cases hw
              · exact hw
            | [a], _, _ => rfl
            | [a, b], hmem, _ =>
              show (noNt a && (noNt b && true)) = true
              rw [hmem a (List.mem_cons_self _ _),
                hmem b (List.mem_cons_of_mem _ (List.mem_cons_self _ _))]
              rfl
            | a :: b :: c2 :: rest, _, _ => rfl
          · cases hF
        | nt sym =>
          rw [psubProd_alias M rules f rule sym d hd hrh, List.mem_filter] at ht
          obtain ⟨ht, _⟩ := ht
          rw [List.mem_flatMap] at ht
          obtain ⟨r, hr, ht⟩ := ht
          exact ih (.inl r) d t (wfRule_of_mem_rulesFor hwf hr) ht
        | pynone =>
          rw [psubProd_rhs_pynone M rules f rule d hrh] at ht
          cases ht

theorem compoundDepthList_le {xs : List (Tree C)} {k : Int} (h0 : 0 ≤ k)
    (h : ∀ x ∈ xs, (compoundDepth x : Int) ≤ k) : (compoundDepthList xs : Int) ≤ k := by
  induction xs with
  | nil => simpa [compoundDepthList] using h0
  | cons c cs ih =>
    show ((max (compoundDepth c) (compoundDepthList cs) : Nat) : Int) ≤ k
    rw [Nat.cast_max]
    exact max_le (h c (List.mem_cons_self _ _)) (ih fun x hx => h x (List.mem_cons_of_mem _ hx))

theorem flat_compoundDepth_zero {c : Tree C} (h : flatTemplateChild c = true) :
    compoundDepth c = 0 := by
  cases c
  case int => rfl
  case str => rfl
  case var => rfl
  case nt => rfl
  case pynone =>
    exfalso
    simp [flatTemplateChild, Tree.isNt, Tree.isLeaf] at h
  case node =>
    exfalso
    simp [flatTemplateChild, Tree.isNt, Tree.isLeaf] at h
  case symNode =>
    exfalso
    simp [flatTemplateChild, Tree.isNt, Tree.isLeaf] at h

theorem psub_depth_bound (M : CModel C) (rules : RuleMap C) (hfl : flatRuleMap rules = true) :
    ∀ (fuel : Nat) (p : ProductionRule C ⊕ Nonterminal C) (d : Int) (t : Tree C),
      flatProd p = true → t ∈ psubProd M rules fuel p d → (compoundDepth t : Int) ≤ d := by
  intro fuel
  induction fuel with
  | zero =>
    intro p d t _ ht
    cases ht
  | succ f ih =>
    intro p d t hp ht
    by_cases hd0 : d ≤ 0
    · rw [psubProd_nonpos M rules _ p d hd0] at ht
      cases ht
    · have hd : 0 < d := by omega
      cases p with
      | inr sym =>
        rw [psubProd_inr M rules f sym d hd, List.mem_flatMap] at ht
        obtain ⟨r, hr, ht⟩ := ht
        rw [List.mem_filter] at ht
        exact ih (.inl r) d t (flatRule_of_mem_rulesFor hfl hr) ht.1
      | inl rule =>
        cases hrh : rule.rhs with
        | int i =>
          rw [psubProd_value_int M rules f rule i d hd hrh] at ht
          split at ht
          · rw [List.mem_singleton] at ht
            subst ht
            show ((0 : Nat) : Int) ≤ d
            omega
          · cases ht
        | str s =>
          rw [psubProd_value_str M rules f rule s d hd hrh] at ht
          split at ht
          · rw [List.mem_singleton] at ht
            subst ht
            show ((0 : Nat) : Int) ≤ d
            omega
          · cases ht
        | var v =>
          rw [psubProd_value_var M rules f rule v d hd hrh] at ht
          split at ht
          · rw [List.mem_singleton] at ht
            subst ht
            show ((0 : Nat) : Int) ≤ d
            omega
          · cases ht
        | node n cs =>
          rw [psubProd_node M rules f rule n cs d hd hrh, List.mem_filterMap] at ht
          obtain ⟨fill, hfill, hF⟩ := ht
          split at hF
          · rw [Option.some_inj] at hF
            subst hF
            rw [replaceChildren_node_eq_zipFill]
            have hflr : flatRule rule = true := hp
            rw [flatRule, hrh, List.all_eq_true] at hflr
            have hcd : compoundDepth (Tree.node n (zipFill cs fill)) =
                1 + compoundDepthList (zipFill cs fill) := rfl
            rw [hcd]
            push_cast
            have h2 : (compoundDepthList (zipFill cs fill) : Int) ≤ d - 1 := by
              apply compoundDepthList_le (by omega)
              intro x hx
              rcases zipFill_mem x hx with hx | hx
              · rw [flat_compoundDepth_zero (hflr x hx)]
                show ((0 : Nat) : Int) ≤ d - 1
                omega
              · obtain ⟨pool, hpool, hxp⟩ := mem_of_mem_itertoolsProduct hfill x hx
                rw [List.mem_map] at hpool
                obtain ⟨h, _, rfl⟩ := hpool
                exact ih (.inr h) (d - 1) x rfl hxp
            omega
          · cases hF
        | symNode n cs =>
          rw [psubProd_symNode M rules f rule n cs d hd hrh, List.mem_filterMap] at ht
          obtain ⟨fill, hfill, hF⟩ := ht
          have hfillb : ∀ x ∈ fill, (compoundDepth x : Int) ≤ d - 1 := by
            intro x hx
            obtain ⟨pool, hpool, hxp⟩ := mem_of_mem_itertoolsProduct hfill x hx
            rw [List.mem_map] at hpool
            obtain ⟨h, _, rfl⟩ := hpool
            exact ih (.inr h) (d - 1) x rfl hxp
          have hflr : flatRule rule = true := hp
          rw [flatRule, hrh, List.all_eq_true] at hflr
          split at hF
          · rw [Option.some_inj] at hF
            subst hF
            match fill, hfillb with
            | [], _ =>
              show (compoundDepth (Tree.symNode n cs) : Int) ≤ d
              have hcd : compoundDepth (Tree.symNode n cs) = 1 + compoundDepthList cs := rfl
              rw [hcd]
              push_cast
              have h2 : (compoundDepthList cs : Int) ≤ 0 := by
                apply compoundDepthList_le (by omega)
                intro x hx
                rw [flat_compoundDepth_zero (hflr x hx)]
                show ((0 : Nat) : Int) ≤ 0
                omega
              omega
            | [a], _ =>
              show ((0 : Nat) : Int) ≤ d
              omega
            | [a, b], hb =>
              show (compoundDepth (Tree.symNode n [a, b]) : Int) ≤ d
              have hcd : compoundDepth (Tree.symNode n [a, b]) =
                  1 + compoundDepthList [a, b] := rfl
              rw [hcd]
              push_cast
              have h2 : (compoundDepthList [a, b] : Int) ≤ d - 1 := by
                apply compoundDepthList_le (by omega)
                intro x hx
                rcases List.mem_cons.mp hx with rfl | hx
                · exact hb x (List.mem_cons_self _ _)
                · rcases List.mem_cons.mp hx with rfl | hx
                  · exact hb x (List.mem_cons_of_mem _ (List.mem_cons_self _ _))
                  · cases hx
              omega
            | a :: b :: c2 :: rest, _ =>
              show ((0 : Nat) : Int) ≤ d
              omega
          · cases hF
        | nt sym =>
          rw [psubProd_alias M rules f rule sym d hd hrh, List.mem_filter] at ht
          obtain ⟨ht, _⟩ := ht
          rw [List.mem_flatMap] at ht
          obtain ⟨r, hr, ht⟩ := ht
          exact ih (.inl r) d t (flatRule_of_mem_rulesFor hfl hr) ht
        | pynone =>
          rw [psubProd_rhs_pynone M rules f rule d hrh] at ht
          cases ht

theorem compoundDepth_deepAdd : ∀ n, compoundDepth (deepAdd n) = n := by
  intro n
  induction n with
  | zero => rfl
  | succ n ih =>
    have h1 : compoundDepthList [deepAdd n, deepAdd n] = n := by
      show max (compoundDepth (deepAdd n)) (max (compoundDepth (deepAdd n)) 0) = n
      rw [ih]
      omega
    show 1 + compoundDepthList [deepAdd n, deepAdd n] = n + 1
    rw [h1]
    omega

theorem rulesFor_gInf : rulesFor gInf.maps "A" =
    [⟨ntA, .int 1, []⟩, ⟨ntA, .node "add" [.nt ntA, .nt ntA], []⟩] := rfl

theorem deepAdd_mem : ∀ (n : Nat) (d : Int), (n : Int) < d →
    deepAdd n ∈ psubProd MUnit gInf.maps (fuelFor n) (.inr ntA) d := by
  intro n
  induction n with
  | zero =>
    intro d hd
    have hd : 0 < d := by omega
    rw [show fuelFor 0 = 1 + 1 from rfl]
    rw [psubProd_inr MUnit gInf.maps 1 ntA d hd, List.mem_flatMap]
    refine ⟨⟨ntA, .int 1, []⟩, ?_, ?_⟩
    · rw [show ntA.name = "A" from rfl, rulesFor_gInf]
      exact List.mem_cons_self _ _
    · rw [List.mem_filter]
      constructor
      · rw [psubProd_value_int MUnit gInf.maps 0 ⟨ntA, .int 1, []⟩ 1 d hd rfl]
        have hcs : canSubstitute MUnit (⟨ntA, .int 1, []⟩ : ProductionRule Unit)
            (.int 1) = true := rfl
        rw [if_pos hcs]
        exact List.mem_singleton.mpr rfl
      · rfl
  | succ n ih =>
    intro d hd
    have hd0 : 0 < d := by omega
    rw [show fuelFor (n + 1) = (fuelFor n + 1) + 1 from rfl]
    rw [psubProd_inr MUnit gInf.maps (fuelFor n + 1) ntA d hd0, List.mem_flatMap]
    refine ⟨⟨ntA, .node "add" [.nt ntA, .nt ntA], []⟩, ?_, ?_⟩
    · rw [show ntA.name = "A" from rfl, rulesFor_gInf]
      exact List.mem_cons_of_mem _ (List.mem_cons_self _ _)
    · rw [List.mem_filter]
      constructor
      · rw [psubProd_node MUnit gInf.maps (fuelFor n)
          ⟨ntA, .node "add" [.nt ntA, .nt ntA], []⟩ "add" [.nt ntA, .nt ntA] d hd0 rfl]
        rw [List.mem_filterMap]
        refine ⟨[deepAdd n, deepAdd n], ?_, ?_⟩
        · rw [show holesOf [Tree.nt (C := Unit) ntA, Tree.nt ntA] = [ntA, ntA] from rfl]
          have hmem := ih (d - 1) (by omega)
          exact mem_itertoolsProduct_pair hmem hmem
        · rfl
      · rfl

/-! ### The claims -/

/-- Claim C1: every tree yielded by `perform_substitution` (and hence by
`enumerate_bottom_up` and `enumerate_forever`) is complete — no reachable
descendant is a placeholder `Nonterminal` — for every grammar of the
spec's data model (rule templates have placeholder or fully concrete
children), every production or nonterminal argument, and every depth. -/
theorem claim_C1 {C : Type} (M : CModel C) (g : Grammar C) (hwf : wfGrammar g = true) :
    (∀ (fuel : Nat) (p : ProductionRule C ⊕ Nonterminal C) (d : Int) (t : Tree C),
        wfProd p = true → t ∈ psubProd M g.maps fuel p d → noNt t = true)
    ∧ (∀ (fuel : Nat) (d : Int) (screen : List (Tree C)) (t : Tree C),
        t ∈ (enumerateBottomUp M g fuel d screen).1 → noNt t = true)
    ∧ (∀ (fuel : Nat) (screen : List (Tree C)) (t : Tree C),
        t ∈ (enumerateForever M g fuel screen).1 → noNt t = true) := by
  have hm : wfRuleMap g.maps = true := hwf
  refine ⟨psub_noNt M g.maps hm, ?_, ?_⟩
  · intro fuel d screen t ht
    obtain ⟨r, hr, hmem⟩ := enumerateBottomUp_mem ht
    exact psub_noNt M g.maps hm fuel (.inl r) d t (wfRule_of_mem_rulesFor hm hr) hmem
  · intro fuel screen t ht
    rw [enumerateForever_eq_depthState] at ht
    obtain ⟨d, _, r, hr, hmem⟩ := depthState_mem ht
    exact psub_noNt M g.maps hm fuel (.inl r) _ t (wfRule_of_mem_rulesFor hm hr) hmem

/-- Witness for C1 at the concrete grammar `gInf`: the tree produced at
depth 2 is complete. -/
theorem claim_C1_witness :
    wfGrammar gInf = true ∧ noNt (Tree.node (C := Unit) "add" [Tree.int 1, Tree.int 1]) = true := by
  refine ⟨rfl, ?_⟩
  have hmem : Tree.node (C := Unit) "add" [Tree.int 1, Tree.int 1] ∈
      psubProd MUnit gInf.maps 6 (.inr ntA) 2 := by
    show Tree.node (C := Unit) "add" [Tree.int 1, Tree.int 1] ∈
      [Tree.int (C := Unit) 1, Tree.node "add" [Tree.int 1, Tree.int 1]]
    exact List.mem_cons_of_mem _ (List.mem_cons_self _ _)
  exact (claim_C1 MUnit gInf rfl).1 6 (.inr ntA) 2 _ rfl hmem

/-- Claim C2 (code evaluation): within a single `enumerate_forever`
session on the grammar `A ::= add(val, val)` (symmetric),
`val ::= Int(1) | Var("1")`, the session first yields `add(1,1)`, then
`add(Int 1, Var "1")`, then — although it compares `==` to the previous
tree — `add(Var "1", Int 1)` again: the two sort keys tie, so the two
orders hash differently and the screen misses the duplicate. -/
theorem claim_C2_code_eval :
    (enumerateForever MUnit gSym 20 []).1.take 4 =
      [Tree.symNode "add" [Tree.int 1, Tree.int 1],
       Tree.symNode "add" [Tree.int 1, Tree.var "1"],
       Tree.symNode "add" [Tree.var "1", Tree.int 1],
       Tree.symNode "add" [Tree.var "1", Tree.var "1"]]
    ∧ pyEq MUnit (Tree.symNode "add" [Tree.int 1, Tree.var "1"])
        (Tree.symNode "add" [Tree.var "1", Tree.int 1]) = true
    ∧ Tree.symNode (C := Unit) "add" [Tree.int 1, Tree.var "1"] ≠
        Tree.symNode "add" [Tree.var "1", Tree.int 1] := by
  refine ⟨?_, rfl, ?_⟩
  · rw [enumerateForever_eq_depthState]
    have hpref : (depthState MUnit gSym 20 [] 3).1 <+: (depthState MUnit gSym 20 [] 10000).1 :=
      depthState_monotone MUnit gSym 20 [] (by omega)
    have h3 : (depthState MUnit gSym 20 [] 3).1 =
        [Tree.symNode "add" [Tree.int 1, Tree.int 1],
         Tree.symNode "add" [Tree.int 1, Tree.var "1"],
         Tree.symNode "add" [Tree.var "1", Tree.int 1],
         Tree.symNode "add" [Tree.var "1", Tree.var "1"]] := rfl
    rw [h3] at hpref
    exact (List.prefix_iff_eq_take.mp hpref).symm
  · intro h
    injection h with _ h2
    injection h2 with h3 _
    exact Tree.noConfusion h3

/-- Claim C3: `perform_substitution` consumes depth once per template
nesting level and never for indirection — non-positive depth produces
nothing; a bare symbol and an alias rule recurse at the same depth; only
the placeholder children of a template are expanded at `depth - 1`; and
consequently on flat templates every produced tree's operator-nesting
depth is bounded by the depth argument. -/
theorem claim_C3 {C : Type} (M : CModel C) (rules : RuleMap C) :
    (∀ (fuel : Nat) (p : ProductionRule C ⊕ Nonterminal C) (d : Int), d ≤ 0 →
        psubProd M rules fuel p d = [])
    ∧ (∀ (f : Nat) (sym : Nonterminal C) (d : Int), 0 < d →
        psubProd M rules (f + 1) (.inr sym) d =
          (rulesFor rules sym.name).flatMap fun r =>
            (psubProd M rules f (.inl r) d).filter fun t => ntAccepts M sym t)
    ∧ (∀ (f : Nat) (rule : ProductionRule C) (sym : Nonterminal C) (d : Int), 0 < d →
        rule.rhs = .nt sym →
        psubProd M rules (f + 1) (.inl rule) d =
          ((rulesFor rules sym.name).flatMap fun r =>
            psubProd M rules f (.inl r) d).filter fun t => canSubstitute M rule t)
    ∧ (∀ (f : Nat) (rule : ProductionRule C) (n : String) (cs : List (Tree C)) (d : Int),
        0 < d → rule.rhs = .node n cs →
        psubProd M rules (f + 1) (.inl rule) d =
          (itertoolsProduct ((holesOf cs).map fun h =>
              psubProd M rules f (.inr h) (d - 1))).filterMap fun fill =>
            if canSubstitute M rule (Tree.replaceChildren (.node n cs) (holeIndices cs) fill)
            then some (Tree.replaceChildren (.node n cs) (holeIndices cs) fill)
            else none)
    ∧ (flatRuleMap rules = true →
        ∀ (fuel : Nat) (p : ProductionRule C ⊕ Nonterminal C) (d : Int) (t : Tree C),
          flatProd p = true → t ∈ psubProd M rules fuel p d →
            (compoundDepth t : Int) ≤ d) :=
  ⟨psubProd_nonpos M rules,
   fun f sym d hd => psubProd_inr M rules f sym d hd,
   fun f rule sym d hd hrh => psubProd_alias M rules f rule sym d hd hrh,
   fun f rule n cs d hd hrh => psubProd_node M rules f rule n cs d hd hrh,
   fun hfl fuel p d t hp ht => psub_depth_bound M rules hfl fuel p d t hp ht⟩

/-- Witness for C3 at the concrete grammar `gInf`: depth 0 yields nothing,
and the depth-2 tree respects the nesting bound. -/
theorem claim_C3_witness :
    psubProd MUnit gInf.maps 5 (.inr ntA) 0 = []
    ∧ (compoundDepth (Tree.node (C := Unit) "add" [Tree.int 1, Tree.int 1]) : Int) ≤ 2 := by
  constructor
  · exact (claim_C3 MUnit gInf.maps).1 5 (.inr ntA) 0 (by decide)
  · have hmem : Tree.node (C := Unit) "add" [Tree.int 1, Tree.int 1] ∈
        psubProd MUnit gInf.maps 6 (.inr ntA) 2 := by
      show Tree.node (C := Unit) "add" [Tree.int 1, Tree.int 1] ∈
        [Tree.int (C := Unit) 1, Tree.node "add" [Tree.int 1, Tree.int 1]]
      exact List.mem_cons_of_mem _ (List.mem_cons_self _ _)
    exact (claim_C3 MUnit gInf.maps).2.2.2.2 rfl 6 (.inr ntA) 2 _ rfl hmem

/-- Claim C4 (amended): `enumerate_forever` yields the concatenation of
`enumerate_bottom_up(depth)` for depth 0 up to 9999 with one shared
screen — the loop has the explicit upper bound `range(0, 10000)`, so the
session is the 10000-depth state, each depth appending its block. -/
theorem claim_C4_amended {C : Type} (M : CModel C) (g : Grammar C) (fuel : Nat)
    (screen : List (Tree C)) :
    enumerateForever M g fuel screen = depthState M g fuel screen 10000
    ∧ ∀ n : Nat, (depthState M g fuel screen (n + 1)).1 =
        (depthState M g fuel screen n).1 ++
          (enumerateBottomUp M g fuel (Int.ofNat n) (depthState M g fuel screen n).2).1 :=
  ⟨enumerateForever_eq_depthState M g fuel screen, fun _ => rfl⟩

/-- Counterexample to C4 as stated: `gInf` derives the full `add` tree of
nesting depth 10000 (it is produced by `perform_substitution` at depth
10001), yet an `enumerate_forever` session never emits it — the generator
stops of its own accord after depth 9999. -/
theorem claim_C4_counterexample :
    deepAdd 10000 ∈ psubProd MUnit gInf.maps (fuelFor 10000) (.inr ntA) 10001
    ∧ deepAdd 10000 ∉ (enumerateForever MUnit gInf 30000 []).1 := by
  constructor
  · exact deepAdd_mem 10000 10001 (by omega)
  · intro hmem
    rw [enumerateForever_eq_depthState] at hmem
    obtain ⟨d, hd, r, hr, hmem⟩ := depthState_mem hmem
    have hfl : flatRuleMap gInf.maps = true := rfl
    have hb := psub_depth_bound MUnit gInf.maps hfl 30000 (.inl r) (Int.ofNat d)
      (deepAdd 10000) (flatRule_of_mem_rulesFor hfl hr) hmem
    rw [compoundDepth_deepAdd] at hb
    have hcast : Int.ofNat d = (d : Int) := rfl
    rw [hcast] at hb
    omega

/-- Claim C5: enumeration is deterministic — two `enumerate_bottom_up`
runs with fresh screens give the same answer — and step-4 combinations
come in Cartesian-product order with the leftmost placeholder varying
slowest: `itertools.product` of `pool :: pools` enumerates each element of
the head pool in order, and for each, all combinations of the remaining
pools; the template case of `perform_substitution` produces exactly that
product order. -/
theorem claim_C5 {C : Type} (M : CModel C) (g : Grammar C) :
    (∀ (fuel : Nat) (d : Int) (s₁ s₂ : List (Tree C)), s₁ = [] → s₂ = [] →
        enumerateBottomUp M g fuel d s₁ = enumerateBottomUp M g fuel d s₂)
    ∧ (∀ (pool : List (Tree C)) (pools : List (List (Tree C))),
        itertoolsProduct (pool :: pools) =
          pool.flatMap fun x => (itertoolsProduct pools).map fun xs => x :: xs)
    ∧ (∀ (f : Nat) (rule : ProductionRule C) (n : String) (cs : List (Tree C)) (d : Int),
        0 < d → rule.rhs = .node n cs →
        psubProd M g.maps (f + 1) (.inl rule) d =
          (itertoolsProduct ((holesOf cs).map fun h =>
              psubProd M g.maps f (.inr h) (d - 1))).filterMap fun fill =>
            if canSubstitute M rule (Tree.replaceChildren (.node n cs) (holeIndices cs) fill)
            then some (Tree.replaceChildren (.node n cs) (holeIndices cs) fill)
            else none) := by
  refine ⟨?_, fun pool pools => itertoolsProduct_cons pool pools,
    fun f rule n cs d hd hrh => psubProd_node M g.maps f rule n cs d hd hrh⟩
  intro fuel d s1 s2 h1 h2
  rw [h1, h2]

/-- Witness for C5: the two fresh-screen runs agree on `gSym` at depth 2,
and a concrete two-pool product comes out in leftmost-slowest order. -/
theorem claim_C5_witness :
    enumerateBottomUp MUnit gSym 20 2 [] = enumerateBottomUp MUnit gSym 20 2 []
    ∧ itertoolsProduct [[Tree.int (C := Unit) 1, Tree.int 2], [Tree.int 3]] =
        [[Tree.int 1, Tree.int 3], [Tree.int 2, Tree.int 3]] := by
  constructor
  · exact (claim_C5 MUnit gSym).1 20 2 [] [] rfl rfl
  · rw [(claim_C5 MUnit gSym).2.1]
    rfl

/-- Claim C6 (code evaluation): with the complete children `a = Int(1)`
and `b = Var("1")` — whose sort keys tie — `add(a,b)` and `add(b,a)`
compare equal, but their hashes differ (sorting does not canonicalize the
tied pair), and the screen, having registered one, still reports the
other as useful. -/
theorem claim_C6_code_eval :
    pyEq MUnit (Tree.symNode "add" [Tree.int 1, Tree.var "1"])
        (Tree.symNode "add" [Tree.var "1", Tree.int 1]) = true
    ∧ (pyHashKey MUnit (Tree.symNode "add" [Tree.int 1, Tree.var "1"]) ==
        pyHashKey MUnit (Tree.symNode "add" [Tree.var "1", Tree.int 1])) = false
    ∧ screenContains MUnit [Tree.symNode "add" [Tree.int 1, Tree.var "1"]]
        (Tree.symNode "add" [Tree.var "1", Tree.int 1]) = false
    ∧ noNt (Tree.symNode (C := Unit) "add" [Tree.int 1, Tree.var "1"]) = true :=
  ⟨rfl, rfl, rfl, rfl⟩

/-- Claim C7 (code evaluation): a symmetric node that still contains
placeholder children is nevertheless equal to its swap — the unordered
children-set comparison in `__eq__` has no placeholder guard — while its
hash at the same time falls back to the positional form, so the two equal
trees hash differently. -/
theorem claim_C7_code_eval :
    pyEq MUnit (Tree.symNode "add" [Tree.nt ⟨"A", []⟩, Tree.nt ⟨"B", []⟩])
        (Tree.symNode "add" [Tree.nt ⟨"B", []⟩, Tree.nt ⟨"A", []⟩]) = true
    ∧ (pyHashKey MUnit (Tree.symNode "add" [Tree.nt ⟨"A", []⟩, Tree.nt ⟨"B", []⟩]) ==
        pyHashKey MUnit (Tree.symNode "add" [Tree.nt ⟨"B", []⟩, Tree.nt ⟨"A", []⟩])) = false
    ∧ noNt (Tree.symNode (C := Unit) "add" [Tree.nt ⟨"A", []⟩, Tree.nt ⟨"B", []⟩]) = false :=
  ⟨rfl, rfl, rfl⟩

/-- Claim C8: `DoesNotEvaluateTo.is_valid_entry` accepts whenever
evaluation raises a missing-binding lookup error, and on successful
evaluation accepts exactly when the value differs from the forbidden one;
in particular `DoesNotEvaluateTo(0, eval, {})` accepts `Var("x")`. -/
theorem claim_C8 {C : Type} (evals : String → Option (Tree C → List PyVal → PyVal))
    (binds : String → Option PyVal) (v : PyVal) :
    (∀ (t : Tree C) (n : String), evalAST evals binds t = .error (.missingBinding n) →
        isValidEntryDNE evals binds v t = true)
    ∧ (∀ (t : Tree C) (r : PyVal), evalAST evals binds t = .ok r →
        (isValidEntryDNE evals binds v t = true ↔ r ≠ v))
    ∧ isValidEntryDNE evals (fun _ => none) (.int 0) (Tree.var (C := C) "x") = true := by
  refine ⟨?_, ?_, rfl⟩
  · intro t n h
    unfold isValidEntryDNE
    rw [h]
  · intro t r h
    unfold isValidEntryDNE
    rw [h]
    simp [bne_iff_ne]

/-- Witness for C8: evaluating `Var("x")` under the empty binding fails
with the missing-binding error, and the constraint accepts it. -/
theorem claim_C8_witness :
    evalAST (C := Unit) (fun _ => none) (fun _ => none) (Tree.var "x") =
      .error (.missingBinding "x")
    ∧ isValidEntryDNE (C := Unit) (fun _ => none) (fun _ => none) (.int 0)
        (Tree.var "x") = true :=
  ⟨rfl, (claim_C8 (fun _ => none) (fun _ => none) (.int 0)).1 (Tree.var "x") "x" rfl⟩

/-- Claim C9 (code evaluation): `SymmetricNode.replace_children` with one
valid position/replacement returns `None` (the branch builds the node but
never returns it), and with two replacements it ignores the given
positions, placing the replacements at positions (0, 1) regardless of the
order of `ids`. -/
theorem claim_C9_code_eval :
    Tree.replaceChildren (C := Unit) (.symNode "add" [.int 0, .int 1]) [0] [.int 5] = .pynone
    ∧ Tree.replaceChildren (C := Unit) (.symNode "add" [.int 0, .int 1]) [1, 0]
        [.int 5, .int 7] = .symNode "add" [.int 5, .int 7] :=
  ⟨rfl, rfl⟩

/-- Claim C10: `enumerate_bottom_up` never evaluates the start symbol's
own `accepts` — it depends only on the start symbol's name, so replacing
the start constraints changes nothing — and on a concrete grammar whose
start symbol carries a rejecting constraint, the rejected tree `Int(1)`
is still emitted. -/
theorem claim_C10 :
    (∀ (C : Type) (M : CModel C) (g : Grammar C) (cs : List C) (fuel : Nat) (d : Int)
        (screen : List (Tree C)),
        enumerateBottomUp M (setStartConstraints g cs) fuel d screen =
          enumerateBottomUp M g fuel d screen)
    ∧ (enumerateBottomUp MBool gBad 10 1 []).1 = [Tree.int 1]
    ∧ ntAccepts MBool gBad.start (Tree.int 1) = false := by
  refine ⟨?_, rfl, rfl⟩
  intro C M g cs fuel d screen
  rfl

end Synth
